import Mathlib

/-!
# Verification of the `woke` fuzz-campaign orchestrator

A shallow embedding of `src/woke/testing/fuzzer.py`: the node launcher
(`_setup`), the seed-padding logic of `fuzz`, the per-function coverage
computation (`_compute_coverage_per_function`), the orchestrator's
coverage-drain and merge bookkeeping, the worker's execution trace
(`_run` / `exception_handler`) and the orchestrator's attach-decision
prompt and poll loop.  Machine-level details (pipes, OS processes) are
modelled as explicit data: channels become lists of sent values,
the worker's side effects become an explicit event trace.
-/

namespace Woke

/-! ## NodeLauncher: `_setup(port, network_id)` -/

/-- Result of `_setup`: either a subprocess is spawned with the given
argument vector, or a configuration error (Python `ValueError`) is raised
before any spawn. -/
inductive SetupResult where
  | spawned (args : List String)
  | configError (msg : String)
  deriving DecidableEq, Repr

/-- Embedding of `_setup` (fuzzer.py lines 40-60): per-kind fixed argument
sets, unknown kind raises before spawning. -/
def nodeSetup (port : Nat) (network_id : String) : SetupResult :=
  if network_id = "anvil" then
    .spawned ["anvil", "--port", toString port, "--prune-history",
      "--gas-price", "0", "--base-fee", "0", "--steps-tracing"]
  else if network_id = "ganache" then
    .spawned ["ganache-cli", "--port", toString port, "-g", "0", "-k", "istanbul"]
  else if network_id = "hardhat" then
    .spawned ["npx", "hardhat", "node", "--port", toString port]
  else
    .configError ("Unknown network ID '" ++ network_id ++ "'")

/-! ## Seed padding in `fuzz` (fuzzer.py lines 221-231) -/

/-- `os.urandom(8)` modelled over an ambient entropy byte stream `g`:
the `k`-th call returns the 8 bytes `g (8*k) % 256, …, g (8*k+7) % 256`. -/
def urandom8 (g : Nat → Nat) (k : Nat) : List Nat :=
  (List.range 8).map (fun j => g (8 * k + j) % 256)

/-- `random_seeds = list(seeds)`, then while shorter than `process_count`
append `os.urandom(8)`. -/
def padSeeds (g : Nat → Nat) (seeds : List (List Nat)) (process_count : Nat) :
    List (List Nat) :=
  if seeds.length < process_count then
    seeds ++ (List.range (process_count - seeds.length)).map (urandom8 g)
  else
    seeds

/-- Seeds actually assigned to spawned workers: worker `i` is spawned for
each pair produced by `zip(range(process_count), random_seeds)`, so the
assigned list is the first `process_count` padded seeds. -/
def assignedSeeds (g : Nat → Nat) (seeds : List (List Nat)) (process_count : Nat) :
    List (List Nat) :=
  (padSeeds g seeds process_count).take process_count

theorem padSeeds_length_ge (g : Nat → Nat) (seeds : List (List Nat))
    (pc : Nat) : pc ≤ (padSeeds g seeds pc).length ∨ seeds.length = (padSeeds g seeds pc).length := by
  unfold padSeeds
  split
  · left
    simp only [List.length_append, List.length_map, List.length_range]
    omega
  · right
    rfl

theorem assignedSeeds_length (g : Nat → Nat) (seeds : List (List Nat))
    (pc : Nat) (h : seeds.length ≤ pc) : (assignedSeeds g seeds pc).length = pc := by
  unfold assignedSeeds padSeeds
  rcases Nat.lt_or_ge seeds.length pc with hlt | hge
  · simp only [hlt, if_pos]
    rw [List.length_take]
    simp only [List.length_append, List.length_map, List.length_range]
    omega
  · have : seeds.length = pc := Nat.le_antisymm h hge
    simp [Nat.lt_irrefl, this]

/-- C8: every network kind outside {"anvil", "ganache", "hardhat"} fails with
a configuration error naming the offending kind before any subprocess is
spawned; each supported kind spawns a subprocess whose fixed argument set
binds `--port` to the given port. -/
theorem nodeSetup_spec (port : Nat) (network_id : String) :
    (network_id ∉ (["anvil", "ganache", "hardhat"] : List String) →
      nodeSetup port network_id
          = .configError ("Unknown network ID '" ++ network_id ++ "'") ∧
      ∀ args, nodeSetup port network_id ≠ .spawned args) ∧
    (network_id ∈ (["anvil", "ganache", "hardhat"] : List String) →
      ∃ args, nodeSetup port network_id = .spawned args ∧
        ["--port", toString port] <:+: args) := by
  constructor
  · intro h
    simp only [List.mem_cons, List.not_mem_nil, or_false, not_or] at h
    obtain ⟨h1, h2, h3⟩ := h
    rw [nodeSetup, if_neg h1, if_neg h2, if_neg h3]
    exact ⟨rfl, fun args hargs => SetupResult.noConfusion hargs⟩
  · intro h
    simp only [List.mem_cons, List.not_mem_nil, or_false] at h
    rcases h with rfl | rfl | rfl
    · exact ⟨_, rfl, ⟨["anvil"],
        ["--prune-history", "--gas-price", "0", "--base-fee", "0", "--steps-tracing"], rfl⟩⟩
    · exact ⟨_, rfl, ⟨["ganache-cli"], ["-g", "0", "-k", "istanbul"], rfl⟩⟩
    · exact ⟨_, rfl, ⟨["npx", "hardhat", "node"], [], rfl⟩⟩

theorem nodeSetup_witness :
    (nodeSetup 8545 "geth" = .configError ("Unknown network ID '" ++ "geth" ++ "'") ∧
      ∀ args, nodeSetup 8545 "geth" ≠ .spawned args) ∧
    ∃ args, nodeSetup 8545 "anvil" = .spawned args ∧
      ["--port", toString 8545] <:+: args :=
  ⟨(nodeSetup_spec 8545 "geth").1 (by decide),
   (nodeSetup_spec 8545 "anvil").2 (by decide)⟩

/-- C3 counterexample: with one supplied 4-byte seed and `process_count = 2`,
the freshly generated seed assigned to worker 1 has length 8, which differs
from the supplied seeds' declared length 4 — refuting the claim that fresh
seeds match the supplied seeds' length. -/
theorem freshSeed_length_cex :
    (assignedSeeds (fun _ => 0) [[1, 2, 3, 4]] 2).length = 2 ∧
    ((assignedSeeds (fun _ => 0) [[1, 2, 3, 4]] 2).getD 0 []).length = 4 ∧
    ((assignedSeeds (fun _ => 0) [[1, 2, 3, 4]] 2).getD 1 []).length = 8 ∧
    ((assignedSeeds (fun _ => 0) [[1, 2, 3, 4]] 2).getD 1 []).length ≠
      ((assignedSeeds (fun _ => 0) [[1, 2, 3, 4]] 2).getD 0 []).length := by
  decide

/-- C3 (amended): for `process_count ≥ |seeds|` exactly `process_count`
workers are spawned; workers `0 … |seeds|-1` receive the supplied seeds in
order, and each remaining worker receives a freshly generated seed of fixed
length 8 bytes (`os.urandom(8)`), regardless of the supplied seeds' length. -/
theorem seed_assignment_spec (g : Nat → Nat) (seeds : List (List Nat)) (pc : Nat)
    (h : seeds.length ≤ pc) :
    (assignedSeeds g seeds pc).length = pc ∧
    (∀ i, i < seeds.length → (assignedSeeds g seeds pc)[i]? = seeds[i]?) ∧
    (∀ i, seeds.length ≤ i → i < pc →
      ∃ s, (assignedSeeds g seeds pc)[i]? = some s ∧ s.length = 8) := by
  refine ⟨assignedSeeds_length g seeds pc h, ?_, ?_⟩
  · intro i hi
    unfold assignedSeeds padSeeds
    rcases Nat.lt_or_ge seeds.length pc with hlt | hge
    · rw [if_pos hlt, List.getElem?_take, if_pos (by omega),
        List.getElem?_append, if_pos (by omega)]
    · have hepc : seeds.length = pc := Nat.le_antisymm h hge
      rw [if_neg (by omega), List.getElem?_take, if_pos (by omega)]
  · intro i hlo hhi
    have hlt : seeds.length < pc := Nat.lt_of_le_of_lt hlo hhi
    unfold assignedSeeds padSeeds
    rw [if_pos hlt, List.getElem?_take, if_pos hhi,
      List.getElem?_append_right hlo, List.getElem?_map]
    have hr : i - seeds.length < pc - seeds.length := by omega
    rw [List.getElem?_range hr]
    exact ⟨urandom8 g (i - seeds.length), rfl, by simp [urandom8]⟩

theorem seed_assignment_witness :
    (assignedSeeds (fun _ => 3) [[1, 2, 3, 4, 5, 6, 7, 8]] 2).length = 2 ∧
    (assignedSeeds (fun _ => 3) [[1, 2, 3, 4, 5, 6, 7, 8]] 2)[0]?
      = some [1, 2, 3, 4, 5, 6, 7, 8] ∧
    ∃ s, (assignedSeeds (fun _ => 3) [[1, 2, 3, 4, 5, 6, 7, 8]] 2)[1]? = some s ∧
      s.length = 8 := by
  obtain ⟨h1, h2, h3⟩ :=
    seed_assignment_spec (fun _ => 3) [[1, 2, 3, 4, 5, 6, 7, 8]] 2 (by decide)
  exact ⟨h1, h2 0 (by decide), h3 1 (by decide) (by decide)⟩

/-- C9: when the supplied seed list is longer than `process_count`, exactly
`process_count` workers are spawned, assigned the first `process_count`
seeds in order; the surplus seeds are ignored. -/
theorem surplus_seeds_ignored (g : Nat → Nat) (seeds : List (List Nat)) (pc : Nat)
    (h : pc < seeds.length) :
    (assignedSeeds g seeds pc).length = pc ∧
    assignedSeeds g seeds pc = seeds.take pc := by
  have hpad : padSeeds g seeds pc = seeds := by
    unfold padSeeds
    rw [if_neg (by omega)]
  refine ⟨?_, ?_⟩
  · unfold assignedSeeds
    rw [hpad, List.length_take]
    omega
  · unfold assignedSeeds
    rw [hpad]

theorem surplus_seeds_witness :
    (assignedSeeds (fun _ => 0) [[1], [2], [3]] 1).length = 1 ∧
    assignedSeeds (fun _ => 0) [[1], [2], [3]] 1 = [[1]] :=
  surplus_seeds_ignored (fun _ => 0) [[1], [2], [3]] 1 (by decide)

/-! ## Per-function coverage: `_compute_coverage_per_function`
(fuzzer.py lines 190-207) -/

/-- One IDE coverage record: `{"name": …, "coverageHits": …}`. -/
structure FnRec where
  name : String
  coverageHits : Nat
  deriving DecidableEq, Repr

/-- `fn_names`: the names of all records with positive hit count, collected
across all files in iteration order (fuzzer.py lines 194-196). -/
def fnNames (ide_cov : List (String × List FnRec)) : List String :=
  ide_cov.flatMap (fun pr =>
    (pr.2.filter (fun r => 0 < r.coverageHits)).map FnRec.name)

/-- One step of the inner loop of `_compute_coverage_per_function`: skip a
zero-hit record, otherwise insert under `path:name` when the bare name
occurs more than once in `fn_names`, else under the bare name.  A Python
dict is modelled as its insertion sequence; a key's binding is the value of
its most recent insertion (`dictFind`). -/
def covStep (names : List String) (path : String) (acc : List (String × Nat))
    (r : FnRec) : List (String × Nat) :=
  if r.coverageHits = 0 then acc
  else if 1 < names.count r.name then
    acc ++ [(path ++ ":" ++ r.name, r.coverageHits)]
  else acc ++ [(r.name, r.coverageHits)]

/-- Embedding of `_compute_coverage_per_function` (fuzzer.py lines 198-207):
fold the two nested loops over the insertion-sequence dict model. -/
def computeCoveragePerFunction (ide_cov : List (String × List FnRec)) :
    List (String × Nat) :=
  ide_cov.foldl (fun acc pr => pr.2.foldl (covStep (fnNames ide_cov) pr.1) acc) []

/-- Binding of key `k` in a dict modelled as its insertion sequence: the
value of the last insertion of `k`, if any. -/
def dictFind (m : List (String × Nat)) (k : String) : Option Nat :=
  (m.reverse.find? (fun kv => kv.1 == k)).map (fun kv => kv.2)

/-- The key chosen for a positive-hit record. -/
def covKey (names : List String) (path : String) (r : FnRec) : String :=
  if 1 < names.count r.name then path ++ ":" ++ r.name else r.name

/-- Flattened insertion sequence of `_compute_coverage_per_function`. -/
def covEntriesFor (names : List String) (ide_cov : List (String × List FnRec)) :
    List (String × Nat) :=
  ide_cov.flatMap (fun pr =>
    (pr.2.filter (fun r => 0 < r.coverageHits)).map
      (fun r => (covKey names pr.1 r, r.coverageHits)))

theorem covStep_foldl (names : List String) (path : String)
    (recs : List FnRec) (acc : List (String × Nat)) :
    recs.foldl (covStep names path) acc
      = acc ++ (recs.filter (fun r => 0 < r.coverageHits)).map
          (fun r => (covKey names path r, r.coverageHits)) := by
  induction recs generalizing acc with
  | nil => simp
  | cons r rs ih =>
    by_cases h0 : r.coverageHits = 0
    · simp only [List.foldl_cons, List.filter_cons]
      rw [ih]
      have : decide (0 < r.coverageHits) = false := by simp [h0]
      simp [covStep, h0, this]
    · simp only [List.foldl_cons, List.filter_cons]
      have hpos : decide (0 < r.coverageHits) = true := by
        simp [Nat.pos_of_ne_zero h0]
      rw [ih]
      simp only [hpos, if_pos, List.map_cons]
      unfold covStep covKey
      rw [if_neg h0]
      by_cases hc : 1 < names.count r.name
      · rw [if_pos hc, if_pos hc]
        simp
      · rw [if_neg hc, if_neg hc]
        simp

theorem computeCoveragePerFunction_eq (ide_cov : List (String × List FnRec)) :
    computeCoveragePerFunction ide_cov
      = covEntriesFor (fnNames ide_cov) ide_cov := by
  unfold computeCoveragePerFunction covEntriesFor
  generalize fnNames ide_cov = names
  suffices h : ∀ (cov : List (String × List FnRec)) (acc : List (String × Nat)),
      cov.foldl (fun acc pr => pr.2.foldl (covStep names pr.1) acc) acc
        = acc ++ cov.flatMap (fun pr =>
            (pr.2.filter (fun r => 0 < r.coverageHits)).map
              (fun r => (covKey names pr.1 r, r.coverageHits))) by
    simpa using h ide_cov []
  intro cov
  induction cov with
  | nil => simp
  | cons pr prs ih =>
    intro acc
    rw [List.foldl_cons, covStep_foldl, ih, List.flatMap_cons, List.append_assoc]

theorem find?_eq_some_of_nodup_keys (l : List (String × Nat)) (k : String)
    (v : Nat) (hnd : (l.map Prod.fst).Nodup) (hmem : (k, v) ∈ l) :
    l.find? (fun kv => kv.1 == k) = some (k, v) := by
  induction l with
  | nil => simp at hmem
  | cons a as ih =>
    simp only [List.map_cons, List.nodup_cons] at hnd
    by_cases hk : a.1 = k
    · have : (k, v) = a := by
        rcases List.mem_cons.mp hmem with h | h
        · exact h
        · exact absurd (hk ▸ (List.mem_map.mpr ⟨(k, v), h, rfl⟩)) hnd.1
      rw [List.find?_cons_of_pos _ (by simp [hk]), this]
    · have hmem2 : (k, v) ∈ as := by
        rcases List.mem_cons.mp hmem with h | h
        · exact absurd (congrArg Prod.fst h).symm hk
        · exact h
      rw [List.find?_cons_of_neg _ (by simp [hk])]
      exact ih hnd.2 hmem2

theorem dictFind_eq_some_of_nodup_keys (l : List (String × Nat)) (k : String)
    (v : Nat) (hnd : (l.map Prod.fst).Nodup) (hmem : (k, v) ∈ l) :
    dictFind l k = some v := by
  unfold dictFind
  rw [find?_eq_some_of_nodup_keys l.reverse k v
    (by rw [List.map_reverse]; exact List.nodup_reverse.mpr hnd)
    (List.mem_reverse.mpr hmem)]
  rfl

theorem count_flatMap_eq_sum {α β : Type} [DecidableEq β] (f : α → List β)
    (l : List α) (b : β) :
    ((l.flatMap f).count b) = (l.map (fun a => (f a).count b)).sum := by
  induction l with
  | nil => rfl
  | cons a as ih => simp [List.flatMap_cons, List.count_append, ih]

theorem sum_ge_of_two_mem {α : Type} (f : α → Nat) (l : List α) (a b : α)
    (ha : a ∈ l) (hb : b ∈ l) (hne : a ≠ b) : f a + f b ≤ (l.map f).sum := by
  induction l with
  | nil => simp at ha
  | cons x xs ih =>
    simp only [List.map_cons, List.sum_cons]
    rcases List.mem_cons.mp ha with rfl | ha2
    · have hb2 : b ∈ xs := by
        rcases List.mem_cons.mp hb with h | h
        · exact absurd h.symm hne
        · exact h
      have : f b ≤ (xs.map f).sum :=
        List.single_le_sum (by simp) _ (List.mem_map.mpr ⟨b, hb2, rfl⟩)
      omega
    · rcases List.mem_cons.mp hb with rfl | hb2
      · have : f a ≤ (xs.map f).sum :=
          List.single_le_sum (by simp) _ (List.mem_map.mpr ⟨a, ha2, rfl⟩)
        omega
      · have := ih ha2 hb2
        omega

theorem mem_covEntriesFor (names : List String)
    (cov : List (String × List FnRec)) (p : String) (recs : List FnRec)
    (r : FnRec) (hp : (p, recs) ∈ cov) (hr : r ∈ recs)
    (hpos : 0 < r.coverageHits) :
    (covKey names p r, r.coverageHits) ∈ covEntriesFor names cov := by
  unfold covEntriesFor
  refine List.mem_flatMap.mpr ⟨(p, recs), hp, ?_⟩
  exact List.mem_map.mpr ⟨r, List.mem_filter.mpr ⟨hr, by simpa using hpos⟩, rfl⟩

theorem count_fnNames_pos (recs : List FnRec) (r : FnRec) (nm : String)
    (hr : r ∈ recs) (hpos : 0 < r.coverageHits) (hname : r.name = nm) :
    1 ≤ ((recs.filter (fun x => 0 < x.coverageHits)).map FnRec.name).count nm := by
  have : nm ∈ (recs.filter (fun x => 0 < x.coverageHits)).map FnRec.name :=
    List.mem_map.mpr ⟨r, List.mem_filter.mpr ⟨hr, by simpa using hpos⟩, hname⟩
  exact List.count_pos_iff.mpr this

/-- Every binding inserted by `_compute_coverage_per_function` carries a
positive hit count (zero-hit records are skipped). -/
theorem covEntriesFor_pos (names : List String)
    (cov : List (String × List FnRec)) :
    ∀ kv ∈ covEntriesFor names cov, 0 < kv.2 := by
  intro kv hkv
  unfold covEntriesFor at hkv
  rcases List.mem_flatMap.mp hkv with ⟨pr, _, hkv2⟩
  rcases List.mem_map.mp hkv2 with ⟨r, hrf, rfl⟩
  simpa using (List.mem_filter.mp hrf).2

/-- C5: in `_compute_coverage_per_function` over a merged coverage mapping:
zero-hit records create no binding (every binding in the output has a
positive hit count); a positive-hit record whose bare name is globally
unique among positive-hit records is keyed by the bare name, mapped to its
hit count; a positive-hit record whose bare name also occurs in a
positive-hit record of a different file is keyed by `path:name`, mapped to
its hit count.  The hypothesis `hkeys` states that the generated keys are
pairwise distinct (no overwriting collisions), which holds for well-formed
Solidity coverage data. -/
theorem compute_coverage_per_function_spec (cov : List (String × List FnRec))
    (hkeys : ((covEntriesFor (fnNames cov) cov).map Prod.fst).Nodup) :
    (∀ k v, dictFind (computeCoveragePerFunction cov) k = some v → 0 < v) ∧
    (∀ p recs r, (p, recs) ∈ cov → r ∈ recs → 0 < r.coverageHits →
      (fnNames cov).count r.name = 1 →
      dictFind (computeCoveragePerFunction cov) r.name = some r.coverageHits) ∧
    (∀ p recs r p2 recs2 r2, (p, recs) ∈ cov → r ∈ recs →
      0 < r.coverageHits → (p2, recs2) ∈ cov → r2 ∈ recs2 →
      0 < r2.coverageHits → r2.name = r.name → p2 ≠ p →
      dictFind (computeCoveragePerFunction cov) (p ++ ":" ++ r.name)
        = some r.coverageHits) := by
  refine ⟨?_, ?_, ?_⟩
  · intro k v hfind
    rw [computeCoveragePerFunction_eq] at hfind
    unfold dictFind at hfind
    rcases Option.map_eq_some'.mp hfind with ⟨kv, hkv, hv⟩
    have hmem : kv ∈ covEntriesFor (fnNames cov) cov :=
      List.mem_reverse.mp (List.mem_of_find?_eq_some hkv)
    have := covEntriesFor_pos (fnNames cov) cov kv hmem
    omega
  · intro p recs r hp hr hpos hcount
    rw [computeCoveragePerFunction_eq]
    have hmem := mem_covEntriesFor (fnNames cov) cov p recs r hp hr hpos
    have hkey : covKey (fnNames cov) p r = r.name := by
      unfold covKey
      rw [hcount, if_neg (by omega)]
    rw [hkey] at hmem
    exact dictFind_eq_some_of_nodup_keys _ _ _ hkeys hmem
  · intro p recs r p2 recs2 r2 hp hr hpos hp2 hr2 hpos2 hname hne
    have hcount : 1 < (fnNames cov).count r.name := by
      unfold fnNames
      rw [count_flatMap_eq_sum]
      have hc1 := count_fnNames_pos recs r r.name hr hpos rfl
      have hc2 := count_fnNames_pos recs2 r2 r.name hr2 hpos2 hname
      have hsum := sum_ge_of_two_mem
        (fun pr => ((pr.2.filter (fun x => 0 < x.coverageHits)).map
          FnRec.name).count r.name) cov (p, recs) (p2, recs2) hp hp2
        (fun hcontra => hne (congrArg Prod.fst hcontra).symm)
      simp only at hsum hc1 hc2 ⊢
      omega
    rw [computeCoveragePerFunction_eq]
    have hmem := mem_covEntriesFor (fnNames cov) cov p recs r hp hr hpos
    have hkey : covKey (fnNames cov) p r = p ++ ":" ++ r.name := by
      unfold covKey
      rw [if_pos hcount]
    rw [hkey] at hmem
    exact dictFind_eq_some_of_nodup_keys _ _ _ hkeys hmem

theorem compute_coverage_per_function_witness :
    dictFind (computeCoveragePerFunction
        [("a.sol", [⟨"f", 2⟩, ⟨"g", 0⟩]), ("b.sol", [⟨"f", 3⟩, ⟨"h", 5⟩])])
      "h" = some 5 ∧
    dictFind (computeCoveragePerFunction
        [("a.sol", [⟨"f", 2⟩, ⟨"g", 0⟩]), ("b.sol", [⟨"f", 3⟩, ⟨"h", 5⟩])])
      ("a.sol" ++ ":" ++ "f") = some 2 ∧
    0 < 5 := by
  obtain ⟨h1, h2, h3⟩ := compute_coverage_per_function_spec
    [("a.sol", [⟨"f", 2⟩, ⟨"g", 0⟩]), ("b.sol", [⟨"f", 3⟩, ⟨"h", 5⟩])]
    (by decide)
  refine ⟨?_, ?_, ?_⟩
  · exact h2 "b.sol" [⟨"f", 3⟩, ⟨"h", 5⟩] ⟨"h", 5⟩ (by decide) (by decide)
      (by decide) (by decide)
  · exact h3 "a.sol" [⟨"f", 2⟩, ⟨"g", 0⟩] ⟨"f", 2⟩ "b.sol" [⟨"f", 3⟩, ⟨"h", 5⟩]
      ⟨"f", 3⟩ (by decide) (by decide) (by decide) (by decide) (by decide)
      (by decide) (by decide) (by decide)
  · exact h1 "h" 5 (h2 "b.sol" [⟨"f", 3⟩, ⟨"h", 5⟩] ⟨"h", 5⟩ (by decide)
      (by decide) (by decide) (by decide))

/-! ## Orchestrator coverage bookkeeping (fuzzer.py lines 327-341) -/

/-- A (file, position) coverage key. -/
abbrev CovKey := String × Nat

/-- One per-worker coverage snapshot: hit counts keyed by (file, position). -/
abbrev CovSnapshot := List (CovKey × Nat)

/-- Hit count a snapshot records for a (file, position); positions absent
from the snapshot contribute zero. -/
def hitCount (s : CovSnapshot) (k : CovKey) : Nat :=
  ((s.find? (fun e => e.1 == k)).map (fun e => e.2)).getD 0

/-- Modelled from the spec: `export_merged_ide_coverage` lives in
`woke/testing/coverage.py`, which is not under `src/`; section 4.2 of the
spec defines the merge as, for each (file, position) entry, the sum over
the given per-worker records of that record's hit count. -/
def mergedHits (snaps : List CovSnapshot) (k : CovKey) : Nat :=
  (snaps.map (fun s => hitCount s k)).sum

/-- The orchestrator's `exported_coverages` dict: worker index to its most
recently received snapshot.  Python-dict semantics: overwriting a present
key keeps its position, a fresh key is appended. -/
abbrev OrchCov := List (Nat × CovSnapshot)

/-- `exported_coverages[i] = s` on the Python-dict model. -/
def dictInsertW (st : OrchCov) (i : Nat) (s : CovSnapshot) : OrchCov :=
  if st.any (fun e => e.1 == i) then
    st.map (fun e => if e.1 == i then (i, s) else e)
  else st ++ [(i, s)]

/-- Drain loop over worker `i`'s coverage queue (fuzzer.py lines 327-337):
pop until empty; the assignment to `exported_coverages[i]` is skipped
(`continue`) while more items remain, so only the last popped snapshot is
stored. -/
def drainCov (st : OrchCov) (i : Nat) : List CovSnapshot → OrchCov
  | [] => st
  | [s] => dictInsertW st i s
  | _ :: s :: rest => drainCov st i (s :: rest)

/-- `list(exported_coverages.values())`, the argument of the merge. -/
def covValues (st : OrchCov) : List CovSnapshot :=
  st.map (fun e => e.2)

theorem dictInsertW_idem (st : OrchCov) (i : Nat) (s : CovSnapshot) :
    dictInsertW (dictInsertW st i s) i s = dictInsertW st i s := by
  unfold dictInsertW
  by_cases h : st.any (fun e => e.1 == i) = true
  · rw [if_pos h]
    rcases List.any_eq_true.mp h with ⟨e, he, hei⟩
    have hmem : (i, s) ∈ st.map (fun e => if e.1 == i then (i, s) else e) :=
      List.mem_map.mpr ⟨e, he, by rw [if_pos hei]⟩
    rw [if_pos (List.any_eq_true.mpr ⟨(i, s), hmem, by simp⟩), List.map_map]
    refine List.map_congr_left ?_
    intro e _
    by_cases he2 : e.1 == i
    · simp only [Function.comp_apply, if_pos he2]
      rw [if_pos (by simp)]
    · simp only [Function.comp_apply, if_neg he2, if_neg he2]
  · rw [if_neg h]
    have hnew : ((st ++ [(i, s)]).any (fun e => e.1 == i)) = true := by
      rw [List.any_append]
      simp
    rw [if_pos hnew, List.map_append]
    have hst : st.map (fun e => if e.1 == i then (i, s) else e) = st := by
      conv_rhs => rw [← List.map_id st]
      refine List.map_congr_left ?_
      intro e he
      simp only [id_eq]
      rw [if_neg ?_]
      intro hei
      exact absurd (List.any_eq_true.mpr ⟨e, he, hei⟩) h
    rw [hst]
    simp

theorem drainCov_last (st : OrchCov) (i : Nat) (q : List CovSnapshot)
    (s : CovSnapshot) (hq : q.getLast? = some s) :
    drainCov st i q = dictInsertW st i s := by
  induction q with
  | nil => simp at hq
  | cons a rest ih =>
    cases rest with
    | nil =>
      simp only [List.getLast?_singleton, Option.some_inj] at hq
      rw [drainCov, hq]
    | cons b l =>
      rw [drainCov, ih (by rwa [List.getLast?_cons_cons] at hq)]

/-- C2: on every drain, only the most recently received snapshot of the
drained worker is stored (the queue's last element); and storing worker
`i`'s latest snapshot again leaves the merged aggregate unchanged at every
(file, position) key — re-submission never double-counts.  Both aggregates
(`exported_coverages` and `exported_coverages_per_trans`) are instances of
the same state type and merge, so the statement covers both. -/
theorem coverage_merge_idempotent (st : OrchCov) (i : Nat) (s : CovSnapshot)
    (q : List CovSnapshot) (sLast : CovSnapshot)
    (hq : q.getLast? = some sLast) (k : CovKey) :
    drainCov st i q = dictInsertW st i sLast ∧
    mergedHits (covValues (dictInsertW (dictInsertW st i s) i s)) k
      = mergedHits (covValues (dictInsertW st i s)) k :=
  ⟨drainCov_last st i q sLast hq, by rw [dictInsertW_idem]⟩

theorem coverage_merge_witness :
    drainCov [] 0 [[(("a.sol", 10), 1)], [(("a.sol", 10), 5)]]
        = dictInsertW [] 0 [(("a.sol", 10), 5)] ∧
    mergedHits (covValues (dictInsertW
        (dictInsertW [(1, [(("a.sol", 10), 7)])] 0 [(("a.sol", 10), 5)])
        0 [(("a.sol", 10), 5)])) ("a.sol", 10)
      = mergedHits (covValues
          (dictInsertW [(1, [(("a.sol", 10), 7)])] 0 [(("a.sol", 10), 5)]))
          ("a.sol", 10) :=
  ⟨(coverage_merge_idempotent [] 0 [(("a.sol", 10), 5)]
      [[(("a.sol", 10), 1)], [(("a.sol", 10), 5)]] [(("a.sol", 10), 5)]
      (by decide) ("a.sol", 10)).1,
   (coverage_merge_idempotent [(1, [(("a.sol", 10), 7)])] 0
      [(("a.sol", 10), 5)] [[(("a.sol", 10), 5)]] [(("a.sol", 10), 5)]
      (by decide) ("a.sol", 10)).2⟩

/-! ## Worker execution trace: `_run` / `exception_handler`
(fuzzer.py lines 104-187) -/

/-- The scoped log resources a worker may hold (fuzzer.py lines 156-165). -/
inductive CtxKind where
  | stdoutTee
  | stderrTee
  | logFile
  | redirectStdout
  | redirectStderr
  deriving DecidableEq, Repr

/-- Observable worker actions. -/
inductive WEvent where
  | acquireCtx (c : CtxKind)
  | releaseCtx (c : CtxKind)
  | sendEnvelope
  | sendNoError
  | setFinished
  | recvDecision
  | attachDebugger
  | killChain
  deriving DecidableEq, Repr

/-- `ctx_managers` contents by `tee` flag (fuzzer.py lines 157-165), in
acquisition order (appended, then entered front to back). -/
def ctxList (tee : Bool) : List CtxKind :=
  if tee then [.stdoutTee, .stderrTee]
  else [.logFile, .redirectStdout, .redirectStderr]

/-- Event trace of `exception_handler` (fuzzer.py lines 117-131): exit all
context managers in list (acquisition) order and clear the list, send the
pickled exception over the error channel, set the finished event, receive
the attach decision, attach the debugger when requested, and set the
finished event again in the `finally`. -/
def handlerTrace (ctxs : List CtxKind) (attach : Bool) : List WEvent :=
  ctxs.map WEvent.releaseCtx
    ++ [.sendEnvelope, .setFinished, .recvDecision]
    ++ (if attach then [.attachDebugger] else [])
    ++ [.setFinished]

/-- Event trace of `_run` after a successful connect (fuzzer.py lines
156-187).  When the test body raises, the registered `exception_handler`
runs to completion at the raise site (modelled from the spec here: the
`set_exception_handler` dispatch lives in `woke.testing.globals`, which is
not under `src/`; section 4.3 of the spec fixes this order); the exception
then propagates to `_run`'s `except`/`finally`, whose loop over the
now-cleared `ctx_managers` releases nothing, and the chain subprocess is
killed last.  On normal return, `_run_core` sends the "no error" envelope
and sets the finished event, then `_run`'s `finally` releases the context
managers in list order and kills the chain. -/
def runTrace (tee raises attach : Bool) : List WEvent :=
  (ctxList tee).map WEvent.acquireCtx
    ++ (if raises then handlerTrace (ctxList tee) attach
        else [.sendNoError, .setFinished] ++ (ctxList tee).map WEvent.releaseCtx)
    ++ [.killChain]

/-- C1: when the test body raises, the worker writes its error channel
exactly once (one ExceptionEnvelope, no "no error" value), and the node
subprocess kill is the unique last action of the worker trace — strictly
after the attach decision has been received and after the handler's final
finished signal (both finished signals precede the kill). -/
theorem exception_envelope_once_kill_last : ∀ tee attach : Bool,
    (runTrace tee true attach).count .sendEnvelope = 1 ∧
    (runTrace tee true attach).count .sendNoError = 0 ∧
    (runTrace tee true attach).getLast? = some .killChain ∧
    (runTrace tee true attach).count .killChain = 1 ∧
    WEvent.recvDecision ∈ (runTrace tee true attach).dropLast ∧
    ((runTrace tee true attach).dropLast).count .setFinished = 2 := by
  decide

/-- Is an event a context-manager release? -/
def isRelease : WEvent → Bool
  | .releaseCtx _ => true
  | _ => false

/-- The context-manager releases performed before the exception envelope is
sent. -/
def releasesBeforeEnvelope (t : List WEvent) : List WEvent :=
  (t.takeWhile (fun e => e ≠ .sendEnvelope)).filter isRelease

/-- C6 counterexample: for a redirect-mode worker (`tee = false`, context
managers `[logFile, redirectStdout, redirectStderr]`), the teardown
performed before the envelope is transmitted is in acquisition order —
`exception_handler` iterates `ctx_managers` front to back — not in reverse
acquisition order as claimed. -/
theorem teardown_reverse_cex :
    releasesBeforeEnvelope (runTrace false true false)
        = (ctxList false).map WEvent.releaseCtx ∧
    releasesBeforeEnvelope (runTrace false true false)
        ≠ ((ctxList false).reverse).map WEvent.releaseCtx := by
  decide

/-- C6 (amended): on an unhandled test-body exception the worker tears down
all open scoped log resources before serializing and transmitting the
exception — but in acquisition order (front to back over `ctx_managers`),
not reverse acquisition order. -/
theorem teardown_before_envelope : ∀ tee attach : Bool,
    releasesBeforeEnvelope (runTrace tee true attach)
        = (ctxList tee).map WEvent.releaseCtx ∧
    WEvent.sendEnvelope ∈ runTrace tee true attach := by
  decide

/-- The `tee` argument `fuzz` passes to `_run` for worker `i`
(fuzzer.py line 251): `passive and i == 0`. -/
def teeArg (passive : Bool) (i : Nat) : Bool :=
  passive && (i == 0)

theorem acquire_mem_runTrace (t r a : Bool) :
    (WEvent.acquireCtx .stdoutTee ∈ runTrace t r a ↔ t = true) ∧
    (WEvent.acquireCtx .redirectStdout ∈ runTrace t r a ↔ t = false) := by
  revert t r a
  decide

/-- C10: the tee log mode is enabled exactly for worker 0 of a passive
campaign: that worker's trace acquires the stdout/stderr tees; every other
worker, and every worker of a non-passive campaign, instead acquires the
plain log-file redirect managers. -/
theorem tee_mode_spec (passive : Bool) (i : Nat) (raises attach : Bool) :
    (WEvent.acquireCtx .stdoutTee ∈ runTrace (teeArg passive i) raises attach
      ↔ (passive = true ∧ i = 0)) ∧
    (WEvent.acquireCtx .redirectStdout ∈ runTrace (teeArg passive i) raises attach
      ↔ (passive = false ∨ i ≠ 0)) := by
  constructor
  · rw [(acquire_mem_runTrace (teeArg passive i) raises attach).1]
    unfold teeArg
    cases passive <;> simp
  · rw [(acquire_mem_runTrace (teeArg passive i) raises attach).2]
    unfold teeArg
    cases passive <;> simp

/-! ## Attach-decision prompt (fuzzer.py lines 292-319) -/

/-- The `while attach is None` input loop: consume responses until the
first "y" or "n"; `none` models a run of the loop that never receives a
valid response (the orchestrator would re-prompt forever). -/
def promptLoop : List String → Option Bool
  | [] => none
  | r :: rest =>
    if r = "y" then some true
    else if r = "n" then some false
    else promptLoop rest

/-- Number of prompts shown by the input loop. -/
def promptLoopCount : List String → Nat
  | [] => 0
  | r :: rest =>
    if r = "y" then 1 else if r = "n" then 1 else 1 + promptLoopCount rest

/-- The attach decision for a failing worker (fuzzer.py lines 293-316):
prompt when `not passive or i == 0`, otherwise `attach = False` without
prompting. -/
def attachDecision (passive : Bool) (i : Nat) (responses : List String) :
    Option Bool :=
  if passive = false ∨ i = 0 then promptLoop responses else some false

/-- Number of prompts shown for a failing worker. -/
def promptsShown (passive : Bool) (i : Nat) (responses : List String) : Nat :=
  if passive = false ∨ i = 0 then promptLoopCount responses else 0

theorem promptLoop_eq_find (responses : List String) :
    promptLoop responses
      = (responses.find? (fun r => r == "y" || r == "n")).map
          (fun r => r == "y") := by
  induction responses with
  | nil => rfl
  | cons r rest ih =>
    by_cases hy : r = "y"
    · subst hy
      simp [promptLoop]
    · by_cases hn : r = "n"
      · subst hn
        simp [promptLoop]
      · rw [promptLoop, if_neg hy, if_neg hn,
          List.find?_cons_of_neg _ (by simp [hy, hn]), ih]

/-- C7: when a worker reports an exception, if the campaign is not passive
or the failing worker is worker 0, the orchestrator prompts, skipping every
response other than "y"/"n" (re-prompt), and the decision is `true` exactly
when the first accepted response is "y"; in passive mode for a worker of
nonzero index the decision is `false` and no prompt is shown. -/
theorem attach_decision_spec (passive : Bool) (i : Nat)
    (responses : List String) :
    (passive = false ∨ i = 0 →
      attachDecision passive i responses
          = (responses.find? (fun r => r == "y" || r == "n")).map
              (fun r => r == "y") ∧
      promptsShown passive i responses = promptLoopCount responses) ∧
    (passive = true → i ≠ 0 →
      attachDecision passive i responses = some false ∧
      promptsShown passive i responses = 0) := by
  constructor
  · intro h
    rw [attachDecision, if_pos h, promptLoop_eq_find, promptsShown, if_pos h]
    exact ⟨rfl, rfl⟩
  · intro hp hi
    have hcond : ¬(passive = false ∨ i = 0) := by
      rintro (h | h)
      · rw [hp] at h
        exact Bool.noConfusion h
      · exact hi h
    rw [attachDecision, if_neg hcond, promptsShown, if_neg hcond]
    exact ⟨rfl, rfl⟩

theorem attach_decision_witness :
    attachDecision false 1 ["maybe", "y"] = some true ∧
    attachDecision true 3 ["y"] = some false ∧
    promptsShown true 3 ["y"] = 0 := by
  obtain ⟨h1, -⟩ := (attach_decision_spec false 1 ["maybe", "y"]).1 (Or.inl rfl)
  obtain ⟨h2, h3⟩ := (attach_decision_spec true 3 ["y"]).2 rfl (by decide)
  refine ⟨?_, h2, h3⟩
  rw [h1]
  decide

/-! ## Orchestrator poll loop (fuzzer.py lines 281-290) -/

/-- A worker as the poll loop observes it: whether its completion event is
set.  A worker that terminated without ever setting the event (killed
externally, OS-level crash) has `eventSet = false` at every poll. -/
structure WorkerSig where
  eventSet : Bool
  deriving DecidableEq, Repr

/-- One iteration of `while len(processes):` — each worker is polled with
`e.wait(0.125)`; workers whose event is set are collected in
`to_be_removed` and popped.  Nothing else removes a worker and the loop
body raises no error. -/
def pollStep (ws : List WorkerSig) : List WorkerSig :=
  ws.filter (fun w => !w.eventSet)

/-- `n` iterations of the poll loop. -/
def pollIter : Nat → List WorkerSig → List WorkerSig
  | 0, ws => ws
  | n + 1, ws => pollIter n (pollStep ws)

/-- The poll loop terminates only when the active set empties. -/
def pollTerminates (ws : List WorkerSig) : Prop :=
  ∃ n, pollIter n ws = []

theorem pollIter_dead (n : Nat) :
    pollIter n [WorkerSig.mk false] = [WorkerSig.mk false] := by
  induction n with
  | zero => rfl
  | succ n ih =>
    rw [pollIter, show pollStep [WorkerSig.mk false] = [WorkerSig.mk false] from rfl]
    exact ih

/-- C4 counterexample: with a single worker that terminated without ever
setting its completion event, the orchestrator's poll loop never reaches an
empty active set: it polls forever, and no campaign-fatal condition is
surfaced (the loop body has no other exit), refuting the claim that the
orchestrator does not wait forever. -/
theorem poll_loop_hangs_cex : ¬ pollTerminates [WorkerSig.mk false] := by
  rintro ⟨n, hn⟩
  rw [pollIter_dead n] at hn
  exact List.cons_ne_nil _ _ hn

/-- C4 (amended): each poll waits a bounded 0.125 s per worker, but there
is no maximum-await policy and no dead-process detection: a worker whose
completion event is never set survives every iteration of the poll loop,
so the active set never empties and the campaign never completes. -/
theorem poll_loop_no_dead_detection (w : WorkerSig)
    (hdead : w.eventSet = false) :
    ∀ (n : Nat) (ws : List WorkerSig), w ∈ ws →
      w ∈ pollIter n ws ∧ pollIter n ws ≠ [] := by
  intro n
  induction n with
  | zero =>
    intro ws hw
    exact ⟨hw, List.ne_nil_of_mem hw⟩
  | succ n ih =>
    intro ws hw
    rw [pollIter]
    exact ih (pollStep ws) (List.mem_filter.mpr ⟨hw, by simp [hdead]⟩)

theorem poll_loop_witness :
    WorkerSig.mk false ∈ pollIter 3 [WorkerSig.mk true, WorkerSig.mk false] ∧
    pollIter 3 [WorkerSig.mk true, WorkerSig.mk false] ≠ [] :=
  poll_loop_no_dead_detection (WorkerSig.mk false) rfl 3
    [WorkerSig.mk true, WorkerSig.mk false] (by decide)

end Woke
